import Mathlib

/-!
Verification of the SoftLife preparation pipeline
(`generate_foregrounds.py`, `generate_subliminals.py`).

Python strings are embedded as `List Char` (`PyStr`); `len` is `List.length`
(both count Unicode code points).  The Python string primitives used by the
scripts (`strip`, `split`, `replace`, `find`, `rfind`, `splitlines`, …) are
defined below with Python's semantics and the script functions are translated
on top of them.  The one numeric comparison involving a float,
`len(remaining_text) < max_length * 0.2`, is modelled by the exact rational
comparison `5 * len(remaining_text) < max_length`; the two agree at every
input used in this file.
-/

/-- Python `str` as a list of characters. -/
abbrev PyStr := List Char

/-- Shorthand turning a Lean string literal into a `PyStr`. -/
def pys (s : String) : PyStr := s.toList

/-- Characters stripped by Python `str.strip()` (the ASCII whitespace class;
Python also strips some rarer Unicode space characters, none of which occur
in this development). -/
def isWs (c : Char) : Bool :=
  c == ' ' || c == '\t' || c == '\n' || c == '\r' || c == '\x0b' || c == '\x0c'

/-- Python `str.lstrip()`. -/
def py_lstrip (s : PyStr) : PyStr := s.dropWhile isWs

/-- Python `str.rstrip()`. -/
def py_rstrip (s : PyStr) : PyStr := (s.reverse.dropWhile isWs).reverse

/-- Python `str.strip()`. -/
def py_strip (s : PyStr) : PyStr := py_lstrip (py_rstrip s)

/-- Python `str.startswith(pat)`. -/
def leadsWith : PyStr → PyStr → Bool
  | [], _ => true
  | _ :: _, [] => false
  | p :: ps, c :: cs => p == c && leadsWith ps cs

/-- Worker for `py_split`: scan left to right, cutting at each non-overlapping
occurrence of the (non-empty) separator, like Python `str.split(sep)`.
Each step consumes at least one character and one unit of fuel, so any fuel
of at least the input length computes the split; the fuel-exhausted value is
chosen so that the scan invariants below hold for every fuel. -/
def splitGo (sp : PyStr) : Nat → PyStr → PyStr → List PyStr
  | 0, l, acc => [acc.reverse ++ l]
  | _ + 1, [], acc => [acc.reverse]
  | fuel + 1, c :: rest, acc =>
    if sp ≠ [] ∧ leadsWith sp (c :: rest) = true then
      acc.reverse :: splitGo sp fuel (List.drop sp.length (c :: rest)) []
    else
      splitGo sp fuel rest (c :: acc)

/-- Python `str.split(sep)` for a non-empty separator `sep`. -/
def py_split (sp : PyStr) (s : PyStr) : List PyStr :=
  splitGo sp (s.length + 1) s []

/-- Worker for `py_replace`; fuel as in `splitGo`. -/
def replaceGo (pat rep : PyStr) : Nat → PyStr → PyStr
  | 0, l => l
  | _ + 1, [] => []
  | fuel + 1, c :: rest =>
    if pat ≠ [] ∧ leadsWith pat (c :: rest) = true then
      rep ++ replaceGo pat rep fuel (List.drop pat.length (c :: rest))
    else
      c :: replaceGo pat rep fuel rest

/-- Python `str.replace(pat, rep)` for a non-empty pattern: replace each
non-overlapping occurrence, scanning left to right. -/
def py_replace (pat rep : PyStr) (s : PyStr) : PyStr :=
  replaceGo pat rep (s.length + 1) s

/-- Python `sep.join(parts)`. -/
def sepJoin (sp : PyStr) : List PyStr → PyStr
  | [] => []
  | [x] => x
  | x :: y :: ys => x ++ sp ++ sepJoin sp (y :: ys)

/-- Python `list.index(x)` on a list of strings: index of the first
occurrence of the value `x` (the Python call raises when `x` is absent;
every use below looks up an element of the list). -/
def py_index (xs : List PyStr) (x : PyStr) : Nat :=
  match xs with
  | [] => 0
  | y :: ys => if y = x then 0 else py_index ys x + 1

/-- Python `str.find(c)` for a single-character needle: first index or -1. -/
def py_find (l : PyStr) (c : Char) : Int :=
  match l with
  | [] => -1
  | x :: xs =>
    if x == c then 0
    else
      let r := py_find xs c
      if r = -1 then -1 else r + 1

/-- Python `str.rfind(c)` for a single-character needle: last index or -1. -/
def py_rfind (l : PyStr) (c : Char) : Int :=
  let r := py_find l.reverse c
  if r = -1 then -1 else (l.length : Int) - 1 - r

/-- Python slice `l[a:b]` for non-negative bounds. -/
def pySlice (l : PyStr) (a b : Nat) : PyStr := (l.take b).drop a

/-- Python `str.index(c)` for a character: index of the first occurrence
(the Python call raises when `c` is absent; every use below passes a
character of the string). -/
def idxOfChar (l : PyStr) (c : Char) : Nat :=
  match l with
  | [] => 0
  | x :: xs => if x == c then 0 else idxOfChar xs c + 1

/-- Python `str.splitlines()` restricted to the `\n`, `\r\n` and `\r`
terminators (the inputs here contain no other line boundary). -/
def py_splitlines (s : PyStr) : List PyStr :=
  go s []
where
  go : PyStr → PyStr → List PyStr
    | [], acc => if acc = [] then [] else [acc.reverse]
    | '\r' :: '\n' :: rest, acc => acc.reverse :: go rest []
    | '\n' :: rest, acc => acc.reverse :: go rest []
    | '\r' :: rest, acc => acc.reverse :: go rest []
    | c :: rest, acc => go rest (c :: acc)

/-- Worker for `py_split_ws`; fuel as in `splitGo`. -/
def splitWsGo : Nat → PyStr → List PyStr
  | 0, _ => []
  | fuel + 1, s =>
    match s.dropWhile isWs with
    | [] => []
    | c :: rest =>
      (c :: rest.takeWhile (fun d => !isWs d)) ::
        splitWsGo fuel (rest.dropWhile (fun d => !isWs d))

/-- Python `str.split()` with no argument: maximal runs of non-whitespace
characters, with no empty tokens. -/
def py_split_ws (s : PyStr) : List PyStr := splitWsGo (s.length + 1) s

/-! ## The chunker (`generate_foregrounds.chunk_text`) -/

/-- The sentence delimiter `". "` used by `chunk_text`. -/
def sepDot : PyStr := ['.', ' ']

/-- Model of `text.replace("\n", " ")` from `chunk_text`. -/
def nlToSpace (t : PyStr) : PyStr := py_replace ['\n'] [' '] t

/-- The candidate-sentence list computed by `chunk_text`:
`text.replace("\n", " ").split(". ")`. -/
def sentencesOf (t : PyStr) : List PyStr := py_split sepDot (nlToSpace t)

/-- The `remaining_text` accumulation in `chunk_text`: start from a string and
append `s + ". "` for each remaining sentence. -/
def dotJoin (l : List PyStr) : PyStr := (l.map (fun s => s ++ sepDot)).flatten

/-- The `for sentence in sentences` loop of `chunk_text`.  `all` is the full
sentence list (needed because the source computes
`sentences.index(sentence)`, the first occurrence of the sentence value);
`rest` is the part of the list still to be processed and `cur` is
`current_chunk`.  The merge branch returns immediately, mirroring the `break`
with `current_chunk = ""` (the final flush then appends nothing).
`remainingOf` is the `remaining_text` computation of lines 44–47: the
overflowing sentence plus every sentence after the **first occurrence** of
its value in the full list. -/
def remainingOf (all : List PyStr) (s : PyStr) : PyStr :=
  (s ++ sepDot) ++ dotJoin (List.drop (py_index all s + 1) all)

def chunkLoop (all : List PyStr) (maxLength : Nat) :
    List PyStr → PyStr → List PyStr
  | [], cur => if cur = [] then [] else [py_strip cur]
  | s :: rest, cur =>
    if cur.length + s.length < maxLength then
      chunkLoop all maxLength rest (cur ++ s ++ sepDot)
    else if cur ≠ [] then
      if (remainingOf all s).length * 5 < maxLength then
        [py_strip (cur ++ remainingOf all s)]
      else
        py_strip cur :: chunkLoop all maxLength rest (s ++ sepDot)
    else
      chunkLoop all maxLength rest (s ++ sepDot)

/-- Model of `chunk_text(text, max_length)` from `generate_foregrounds.py`. -/
def chunk_text (text : PyStr) (maxLength : Nat) : List PyStr :=
  if text.length ≤ maxLength then [text]
  else
    let sentences := sentencesOf text
    chunkLoop sentences maxLength sentences []

/-- Chunker loop as described by the specification (claim C2): on overflow
the tail is the overflowing sentence together with the sentences actually
remaining after it, rather than the suffix found through
`sentences.index(sentence)`. -/
def chunkLoopSpec (maxLength : Nat) : List PyStr → PyStr → List PyStr
  | [], cur => if cur = [] then [] else [py_strip cur]
  | s :: rest, cur =>
    if cur.length + s.length < maxLength then
      chunkLoopSpec maxLength rest (cur ++ s ++ sepDot)
    else if cur ≠ [] then
      let remaining := (s ++ sepDot) ++ dotJoin rest
      if remaining.length * 5 < maxLength then
        [py_strip (cur ++ remaining)]
      else
        py_strip cur :: chunkLoopSpec maxLength rest (s ++ sepDot)
    else
      chunkLoopSpec maxLength rest (s ++ sepDot)

/-- Chunker as described by the specification's words for claim C2. -/
def chunk_text_spec (text : PyStr) (maxLength : Nat) : List PyStr :=
  if text.length ≤ maxLength then [text]
  else
    let sentences := sentencesOf text
    chunkLoopSpec maxLength sentences []

/-! ## The line extractor (`generate_subliminals.write_lines`) -/

/-- The per-line cleaning of `write_lines`: iterate over `line.strip()` and
keep `char` unless `char.isdigit()` or `char == '.'` and
`any(c.isdigit() for c in line[max(0, line.index(char) - 1):line.index(char)])`
— note that `line.index(char)` finds the **first** occurrence of the
character value in the original line. -/
def clean_line (line : PyStr) : PyStr :=
  (py_strip line).filter (fun c =>
    !(c.isDigit ||
      (c == '.' &&
        (pySlice line (idxOfChar line c - 1) (idxOfChar line c)).any Char.isDigit)))

/-- The Line Extractor: the model reply is split into lines
(`content.splitlines()` in `generate_lines`) and each line is cleaned by
`write_lines`. -/
def extractLines (raw : PyStr) : List PyStr :=
  (py_splitlines raw).map clean_line

/-- Per-line cleaning as described by claim C7: remove every digit and every
`'.'` whose immediately preceding character in the stripped line is a digit,
scanning left to right. -/
def cleanLineSpec (line : PyStr) : PyStr :=
  go none (py_strip line)
where
  go : Option Char → PyStr → PyStr
    | _, [] => []
    | prev, c :: rest =>
      (if c.isDigit ||
          (c == '.' && (match prev with | some d => d.isDigit | none => false))
        then [] else [c]) ++ go (some c) rest

/-- Line Extractor as described by claim C7's words. -/
def extractLines_spec (raw : PyStr) : List PyStr :=
  (py_splitlines raw).map cleanLineSpec

/-- Does the first `'.'` of the line exist and follow a digit?  This is the
clean characterisation of the condition actually computed by `write_lines`
through `line.index('.')` and the one-character slice before it. -/
def firstDotAfterDigit (line : PyStr) : Bool :=
  let pre := line.takeWhile (fun c => !(c == '.'))
  if pre.length = line.length then false
  else
    match pre.getLast? with
    | some d => d.isDigit
    | none => false

/-! ## Sequencer and output files (`process_files`, lines 257–281) -/

/-- The character of a decimal digit. -/
def decChar (d : Nat) : Char :=
  if d = 0 then '0' else if d = 1 then '1' else if d = 2 then '2'
  else if d = 3 then '3' else if d = 4 then '4' else if d = 5 then '5'
  else if d = 6 then '6' else if d = 7 then '7' else if d = 8 then '8'
  else '9'

/-- Worker for `natStr`; the fuel bounds the number of digits. -/
def natStrGo : Nat → Nat → PyStr
  | 0, _ => []
  | fuel + 1, n =>
    if n < 10 then [decChar n]
    else natStrGo fuel (n / 10) ++ [decChar (n % 10)]

/-- Decimal digits of a natural number (`str(n)` for the non-negative
counters used here). -/
def natStr (n : Nat) : PyStr := natStrGo (n + 1) n

/-- Python `f"{n:03d}"` for a non-negative `n`: zero-pad to width three. -/
def pad3 (n : Nat) : PyStr :=
  List.replicate (3 - (natStr n).length) '0' ++ natStr n

/-- The characters replaced by `_` when sanitising a title
(`invalid_chars` in `process_files`). -/
def invalid_chars : List Char := ['/', '\\', ':', '*', '?', '"', '<', '>', '|']

/-- The `safe_title` computation: `"_".join(title.split())`, then each unsafe
character replaced by `'_'`, then truncation to 150 characters. -/
def py_safe_title (title : PyStr) : PyStr :=
  let st := sepJoin ['_'] (py_split_ws title)
  let st := invalid_chars.foldl (fun acc ch => py_replace [ch] ['_'] acc) st
  if 150 < st.length then st.take 150 else st

/-- A recovered record: a title and a body. -/
structure Record where
  title : PyStr
  body : PyStr
deriving DecidableEq, Repr

/-- The output filename `f"{global_counter:03d}_{safe_title}.txt"`. -/
def mk_fname (counter : Nat) (title : PyStr) : PyStr :=
  pad3 counter ++ ['_'] ++ py_safe_title title ++ pys ".txt"

/-! ## Structured data (model of Python's `json` module, an external
collaborator of the recovery parser) -/

/-- A parsed JSON value.  Numbers keep their source literal: Python turns
them into `int`/`float` objects and renormalises on printing, which no
theorem below exercises (every title/body used is a JSON string). -/
inductive PyJson where
  | str (s : PyStr)
  | num (lit : PyStr)
  | bool (b : Bool)
  | null
  | arr (xs : List PyJson)
  | obj (kvs : List (PyStr × PyJson))
deriving Repr

/-- JSON whitespace accepted between tokens by `json.loads`. -/
def jsonWs (c : Char) : Bool :=
  c == ' ' || c == '\t' || c == '\n' || c == '\r'

/-- Value of a hexadecimal digit. -/
def hexVal (c : Char) : Option Nat :=
  if '0' ≤ c ∧ c ≤ '9' then some (c.toNat - '0'.toNat)
  else if 'a' ≤ c ∧ c ≤ 'f' then some (c.toNat - 'a'.toNat + 10)
  else if 'A' ≤ c ∧ c ≤ 'F' then some (c.toNat - 'A'.toNat + 10)
  else none

/-- Worker for `parseStrBody`; fuel bounds the scan. -/
def strBodyGo : Nat → PyStr → Option (PyStr × PyStr)
  | 0, _ => none
  | _ + 1, [] => none
  | _ + 1, '"' :: rest => some ([], rest)
  | fuel + 1, '\\' :: 'u' :: h1 :: h2 :: h3 :: h4 :: rest =>
    (match hexVal h1, hexVal h2, hexVal h3, hexVal h4 with
     | some a, some b, some c, some d =>
       (strBodyGo fuel rest).map (fun p =>
         (Char.ofNat (((a * 16 + b) * 16 + c) * 16 + d) :: p.1, p.2))
     | _, _, _, _ => none)
  | fuel + 1, '\\' :: e :: rest =>
    (match (if e == '"' then some '"'
            else if e == '\\' then some '\\'
            else if e == '/' then some '/'
            else if e == 'b' then some '\x08'
            else if e == 'f' then some '\x0c'
            else if e == 'n' then some '\n'
            else if e == 'r' then some '\r'
            else if e == 't' then some '\t'
            else none) with
     | some c => (strBodyGo fuel rest).map (fun p => (c :: p.1, p.2))
     | none => none)
  | fuel + 1, c :: rest =>
    if c.toNat < 0x20 then none
    else (strBodyGo fuel rest).map (fun p => (c :: p.1, p.2))

/-- Body of a JSON string after the opening quote: returns the decoded
characters and the input after the closing quote.  Unescaped control
characters are rejected, like `json.loads` in strict mode. -/
def parseStrBody (s : PyStr) : Option (PyStr × PyStr) :=
  strBodyGo (s.length + 1) s

/-- Fraction and exponent continuation of a JSON number: returns the literal
characters consumed (possibly none) and the rest. -/
def parseNumTail (s : PyStr) : PyStr × PyStr :=
  let fr : PyStr × PyStr :=
    match s with
    | '.' :: r =>
      let ds := r.takeWhile Char.isDigit
      if ds = [] then ([], s) else ('.' :: ds, r.drop ds.length)
    | _ => ([], s)
  let ex : PyStr × PyStr :=
    match fr.2 with
    | e :: r =>
      if e == 'e' || e == 'E' then
        let sg : PyStr × PyStr :=
          match r with
          | '+' :: rr => (['+'], rr)
          | '-' :: rr => (['-'], rr)
          | _ => ([], r)
        let ds := sg.2.takeWhile Char.isDigit
        if ds = [] then ([], fr.2) else (e :: sg.1 ++ ds, sg.2.drop ds.length)
      else ([], fr.2)
    | [] => ([], fr.2)
  (fr.1 ++ ex.1, ex.2)

/-- A JSON number token (also `Infinity`/`-Infinity`, accepted by
`json.loads` by default). -/
def parseNum (s : PyStr) : Option (PyStr × PyStr) :=
  let sg : PyStr × PyStr :=
    match s with
    | '-' :: r => (['-'], r)
    | _ => ([], s)
  if leadsWith (pys "Infinity") sg.2 then
    some (sg.1 ++ pys "Infinity", sg.2.drop 8)
  else
    match sg.2 with
    | c :: r =>
      if c.isDigit then
        let ds := if c == '0' then [] else r.takeWhile Char.isDigit
        let t := parseNumTail (r.drop ds.length)
        some (sg.1 ++ c :: ds ++ t.1, t.2)
      else none
    | [] => none

mutual

/-- Model of `json.loads`'s recursive-descent value parser.  The fuel
strictly decreases on every call; `json_parse` passes enough fuel for any
input of the given length. -/
def parseVal : Nat → PyStr → Option (PyJson × PyStr)
  | 0, _ => none
  | Nat.succ f, s =>
    match s with
    | '{' :: rest =>
      let r := rest.dropWhile jsonWs
      (match r with
       | '}' :: r2 => some (.obj [], r2)
       | _ => (parseMembers f r).map (fun p => (.obj p.1, p.2)))
    | '[' :: rest =>
      let r := rest.dropWhile jsonWs
      (match r with
       | ']' :: r2 => some (.arr [], r2)
       | _ => (parseItems f r).map (fun p => (.arr p.1, p.2)))
    | '"' :: rest => (parseStrBody rest).map (fun p => (.str p.1, p.2))
    | _ =>
      if leadsWith (pys "true") s then some (.bool true, s.drop 4)
      else if leadsWith (pys "false") s then some (.bool false, s.drop 5)
      else if leadsWith (pys "null") s then some (.null, s.drop 4)
      else if leadsWith (pys "NaN") s then some (.num (pys "NaN"), s.drop 3)
      else (parseNum s).map (fun p => (.num p.1, p.2))

/-- Comma-separated array items up to the closing bracket. -/
def parseItems : Nat → PyStr → Option (List PyJson × PyStr)
  | 0, _ => none
  | Nat.succ f, s =>
    match parseVal f s with
    | none => none
    | some (v, rest) =>
      match rest.dropWhile jsonWs with
      | ']' :: r2 => some ([v], r2)
      | ',' :: r2 =>
        (parseItems f ((r2 : PyStr).dropWhile jsonWs)).map
          (fun p => (v :: p.1, p.2))
      | _ => none

/-- Comma-separated `"key": value` members up to the closing brace. -/
def parseMembers : Nat → PyStr → Option (List (PyStr × PyJson) × PyStr)
  | 0, _ => none
  | Nat.succ f, s =>
    match s with
    | '"' :: rest =>
      match parseStrBody rest with
      | none => none
      | some (k, r1) =>
        match (r1 : PyStr).dropWhile jsonWs with
        | ':' :: r2 =>
          match parseVal f ((r2 : PyStr).dropWhile jsonWs) with
          | none => none
          | some (v, r3) =>
            match (r3 : PyStr).dropWhile jsonWs with
            | '}' :: r4 => some ([(k, v)], r4)
            | ',' :: r4 =>
              (parseMembers f ((r4 : PyStr).dropWhile jsonWs)).map
                (fun p => ((k, v) :: p.1, p.2))
            | _ => none
        | _ => none
    | _ => none

end

/-- Model of `json.loads`: parse one value with surrounding whitespace and
require the input to be exhausted. -/
def json_parse (s : PyStr) : Option PyJson :=
  match parseVal (s.length + 1) (s.dropWhile jsonWs) with
  | some (v, rest) => if rest.dropWhile jsonWs = [] then some v else none
  | none => none

/-- Hexadecimal digit character (lower case, as printed by `json.dumps`). -/
def hexChar (n : Nat) : Char :=
  if n < 10 then Char.ofNat ('0'.toNat + n) else Char.ofNat ('a'.toNat + n - 10)

/-- Escaping of one string character by `json.dumps` (default `ensure_ascii`;
astral characters would use a surrogate pair, which no input here
contains). -/
def dumpEsc (c : Char) : PyStr :=
  if c == '"' then pys "\\\""
  else if c == '\\' then pys "\\\\"
  else if c == '\n' then pys "\\n"
  else if c == '\t' then pys "\\t"
  else if c == '\r' then pys "\\r"
  else if c == '\x08' then pys "\\b"
  else if c == '\x0c' then pys "\\f"
  else if c.toNat < 0x20 ∨ 0x7f ≤ c.toNat then
    pys "\\u" ++ [hexChar (c.toNat / 4096 % 16), hexChar (c.toNat / 256 % 16),
                  hexChar (c.toNat / 16 % 16), hexChar (c.toNat % 16)]
  else [c]

/-- Serialisation of a string by `json.dumps`. -/
def dumpStr (s : PyStr) : PyStr :=
  '"' :: (s.map dumpEsc).flatten ++ ['"']

mutual

/-- Model of `json.dumps` with its default separators `", "` and `": "`. -/
def json_dumps : PyJson → PyStr
  | .str s => dumpStr s
  | .num l => l
  | .bool b => pys (if b then "true" else "false")
  | .null => pys "null"
  | .arr xs => '[' :: sepJoin (pys ", ") (dumpList xs) ++ [']']
  | .obj kvs => '{' :: sepJoin (pys ", ") (dumpMembers kvs) ++ ['}']

/-- Serialised array elements. -/
def dumpList : List PyJson → List PyStr
  | [] => []
  | x :: xs => json_dumps x :: dumpList xs

/-- Serialised object members. -/
def dumpMembers : List (PyStr × PyJson) → List PyStr
  | [] => []
  | (k, v) :: rest => (dumpStr k ++ pys ": " ++ json_dumps v) :: dumpMembers rest

end

mutual

/-- Python `repr()` of a parsed JSON value (string elements inside
containers print with single quotes; escaping inside `repr` is simplified
and unexercised by the theorems). -/
def py_repr : PyJson → PyStr
  | .str s => '\'' :: s ++ ['\'']
  | .num l => l
  | .bool b => pys (if b then "True" else "False")
  | .null => pys "None"
  | .arr xs => '[' :: sepJoin (pys ", ") (py_repr_list xs) ++ [']']
  | .obj kvs => '{' :: sepJoin (pys ", ") (py_repr_members kvs) ++ ['}']

/-- Python `repr` of the elements of a list. -/
def py_repr_list : List PyJson → List PyStr
  | [] => []
  | x :: xs => py_repr x :: py_repr_list xs

/-- Python `repr` of the members of a dict. -/
def py_repr_members : List (PyStr × PyJson) → List PyStr
  | [] => []
  | (k, v) :: rest => (py_repr (.str k) ++ pys ": " ++ py_repr v) :: py_repr_members rest

end

/-- Python `str()` of a parsed JSON value, as applied by
`str(piece.get(...))` in `process_files`. -/
def py_str : PyJson → PyStr
  | .str s => s
  | v => py_repr v

/-- Python `dict.get(k, default)` on a dict built by `json.loads`: a later
duplicate key overwrites an earlier one. -/
def py_get (kvs : List (PyStr × PyJson)) (k : PyStr) : Option PyJson :=
  match kvs with
  | [] => none
  | (k', v) :: rest =>
    match py_get rest k with
    | some w => some w
    | none => if k' = k then some v else none

mutual

/-- Model of `_collect_dicts` from `process_files`: keep dicts, recurse into lists,
discard anything else, preserving order. -/
def collect_dicts : PyJson → List (List (PyStr × PyJson))
  | .obj kvs => [kvs]
  | .arr xs => collectList xs
  | _ => []

/-- The function `_collect_dicts` mapped over the elements of a list. -/
def collectList : List PyJson → List (List (PyStr × PyJson))
  | [] => []
  | x :: xs => collect_dicts x ++ collectList xs

end

/-! ## The recovery pipeline (`process_files`, lines 155–259) -/

/-- Worker for `sub_nl`; fuel as in `splitGo`. -/
def subNlGo : Nat → PyStr → PyStr
  | 0, l => l
  | _ + 1, [] => []
  | fuel + 1, c :: rest =>
    if isWs c = true then
      (if ((c :: rest).takeWhile isWs).contains '\n' then [' ']
       else (c :: rest).takeWhile isWs) ++
        subNlGo fuel (rest.dropWhile isWs)
    else c :: subNlGo fuel rest

/-- Model of `re.sub(r'\s*\n\s*', ' ', content)`: each maximal whitespace run that
contains a line break collapses to a single space (a run without a line
break cannot match, since the pattern requires a `\n`). -/
def sub_nl (s : PyStr) : PyStr := subNlGo (s.length + 1) s

/-- Step 2 of the pipeline: strip markdown code fences. -/
def strip_fences (content : PyStr) : PyStr :=
  if leadsWith (pys "```") content then
    let lines := py_splitlines content
    let lines1 :=
      match lines with
      | l :: ls => if leadsWith (pys "```") l then ls else lines
      | [] => lines
    let lines2 :=
      match lines1.getLast? with
      | some l => if leadsWith (pys "```") l then lines1.dropLast else lines1
      | none => lines1
    py_strip (sepJoin ['\n'] lines2)
  else content

/-- Is the character one of the quotes accepted by the unwrap step? -/
def isQuote (c : Char) : Bool := c == '"' || c == '\''

/-- Step 3: `re.fullmatch('["\x27]\s*(\x7b.*\x7d|\[.*\])\s*["\x27]', content)`
— if the whole content is a quoted JSON-looking string (and the group spans
no line break, since `.` does not match `\n`), unwrap one level of quoting
and un-escape inner quotes. -/
def unwrap_quoted (content : PyStr) : PyStr :=
  if 2 ≤ content.length then
    if isQuote (content.headD ' ') && isQuote (content.getLastD ' ') then
      let t := py_strip (pySlice content 1 (content.length - 1))
      if 2 ≤ t.length &&
          ((t.headD ' ' == '{' && t.getLastD ' ' == '}') ||
           (t.headD ' ' == '[' && t.getLastD ' ' == ']')) &&
          !(t.contains '\n') then
        py_strip (py_replace (pys "\\\"") (pys "\"") t)
      else content
    else content
  else content

/-- Step 4: locate the first `{`/`[` and the last `}`/`]` and trim noise
outside them, exactly as in lines 177–191. -/
def trim_noise (content : PyStr) : PyStr :=
  let brace := py_find content '{'
  let brack := py_find content '['
  let cands := List.filter (fun i => i != -1) [brace, brack]
  let content1 :=
    match cands with
    | [] => content
    | c :: cs =>
      let fb := cs.foldl min c
      if 0 < fb then py_lstrip (content.drop fb.toNat) else content
  let rb := py_rfind content1 '}'
  let rk := py_rfind content1 ']'
  let lb := max rb rk
  if lb ≠ -1 ∧ lb < (content1.length : Int) - 1 then
    py_rstrip (content1.take (lb.toNat + 1))
  else content1

/-- Worker for `findall_arrays`; fuel as in `splitGo`. -/
def findArrGo : Nat → PyStr → List PyStr
  | 0, _ => []
  | _ + 1, [] => []
  | fuel + 1, c :: rest =>
    if c == '[' then
      match rest.drop (rest.takeWhile (fun ch => !(ch == '[' || ch == ']'))).length with
      | ']' :: after =>
        ('[' :: rest.takeWhile (fun ch => !(ch == '[' || ch == ']')) ++ [']']) ::
          findArrGo fuel after
      | _ => findArrGo fuel rest
    else findArrGo fuel rest

/-- Model of `re.findall(r'\[[^\[\]]*\]', content)`: non-overlapping bracketed runs
without inner brackets, left to right. -/
def findall_arrays (s : PyStr) : List PyStr := findArrGo (s.length + 1) s

/-- Worker for `findall_objs`; fuel as in `splitGo`. -/
def findObjGo : Nat → PyStr → List PyStr
  | 0, _ => []
  | _ + 1, [] => []
  | fuel + 1, c :: rest =>
    if c == '{' then
      if rest.takeWhile (fun ch => !(ch == '{' || ch == '}')) = [] then
        findObjGo fuel rest
      else
        match rest.drop (rest.takeWhile (fun ch => !(ch == '{' || ch == '}'))).length with
        | '}' :: after =>
          ('{' :: rest.takeWhile (fun ch => !(ch == '{' || ch == '}')) ++ ['}']) ::
            findObjGo fuel after
        | _ => findObjGo fuel rest
    else findObjGo fuel rest

/-- Model of `re.findall(r'\x7b[^\x7b\x7d]+\x7d', content)`: non-overlapping braced
runs with a non-empty bracket-free body, left to right. -/
def findall_objs (s : PyStr) : List PyStr := findObjGo (s.length + 1) s

/-- Step 6's merge: parse each bracketed array independently, keep those that
parse to lists, and concatenate their elements. -/
def merge_arrays (arrs : List PyStr) : List PyJson :=
  arrs.foldl (fun acc arr =>
    match json_parse arr with
    | some (.arr xs) => acc ++ xs
    | _ => acc) []

/-- The full normalization pipeline applied to a raw model reply
(lines 155–218), producing the text handed to `json.loads`. -/
def normalize_reply (raw : PyStr) : PyStr :=
  let content := py_strip raw
  let content := py_replace ['“'] ['"'] content
  let content := py_replace ['”'] ['"'] content
  let content := sub_nl content
  let content := strip_fences content
  let content := unwrap_quoted content
  let content := trim_noise content
  let content :=
    if leadsWith ['{'] content && content.getLastD ' ' == '}' then
      '[' :: content ++ [']']
    else content
  let arrs := findall_arrays content
  if 1 < arrs.length then
    json_dumps (.arr (merge_arrays arrs))
  else if 1 < content.count '{' && !(leadsWith ['['] (py_strip content)) then
    let objs := findall_objs content
    if objs ≠ [] then '[' :: sepJoin [','] objs ++ [']'] else content
  else content

/-- The dictionaries recovered from one model reply (`normalized_outputs`):
normalise, parse (a failure yields none and the chunk is skipped), wrap a
non-list result, and flatten nested lists keeping only dicts. -/
def reply_pieces (raw : PyStr) : List (List (PyStr × PyJson)) :=
  let content := normalize_reply raw
  if content = [] then []
  else
    match json_parse content with
    | none => []
    | some v =>
      let outs := match v with | .arr xs => xs | w => [w]
      collectList outs

/-- One output record from a dict (lines 257–259): the title defaults to
`piece_<counter>` when absent or blank after trimming, the body to the empty
string when absent; both are coerced to trimmed strings. -/
def mk_record (counter : Nat) (piece : List (PyStr × PyJson)) : Record :=
  let dflt := pys "piece_" ++ natStr counter
  let t := py_strip (py_str ((py_get piece (pys "title")).getD (.str dflt)))
  let title := if t = [] then dflt else t
  let body := py_strip (py_str ((py_get piece (pys "body")).getD (.str [])))
  ⟨title, body⟩

/-- The records recovered from a list of dicts, threading the counter that
the per-record loop increments. -/
def recsOf (counter : Nat) : List (List (PyStr × PyJson)) → List Record
  | [] => []
  | p :: ps => mk_record counter p :: recsOf (counter + 1) ps

/-- The Record Recovery Parser: records recovered from one raw reply. -/
def recover_records (counter : Nat) (raw : PyStr) : List Record :=
  recsOf counter (reply_pieces raw)

/-- One written output file: `(filename, contents)`, the contents being the
body plus a trailing newline. -/
def write_piece (counter : Nat) (piece : List (PyStr × PyJson)) :
    PyStr × PyStr :=
  let r := mk_record counter piece
  (mk_fname counter r.title, r.body ++ ['\n'])

/-- The per-record write loop: one file per dict, incrementing the counter
after each write; returns the files and the final counter. -/
def emit_records (counter : Nat) :
    List (List (PyStr × PyJson)) → List (PyStr × PyStr) × Nat
  | [] => ([], counter)
  | p :: ps =>
    let f := write_piece counter p
    let r := emit_records (counter + 1) ps
    (f :: r.1, r.2)

/-- Processing of one model reply: files written and updated counter
(a reply whose recovery fails contributes nothing, and the run continues). -/
def process_reply (counter : Nat) (raw : PyStr) : List (PyStr × PyStr) × Nat :=
  emit_records counter (reply_pieces raw)

/-- Processing of a sequence of model replies in order. -/
def process_replies (counter : Nat) : List PyStr → List (PyStr × PyStr) × Nat
  | [] => ([], counter)
  | raw :: rest =>
    let p := process_reply counter raw
    let q := process_replies p.2 rest
    (p.1 ++ q.1, q.2)

/-- A whole run under the `try/finally` of `process_files`: `none` models a
reply whose generation raised (aborting the remaining work), `some raw` a
received reply.  The result is (files written, counter persisted by the
`finally` block, whether the run completed). -/
def run_aux (counter : Nat) :
    List (Option PyStr) → List (PyStr × PyStr) × Nat × Bool
  | [] => ([], counter, true)
  | none :: _ => ([], counter, false)
  | some raw :: rest =>
    let p := process_reply counter raw
    let q := run_aux p.2 rest
    (p.1 ++ q.1, q.2.1, q.2.2)

/-- A pipeline run from a starting counter. -/
def run_pipeline (start : Nat) (replies : List (Option PyStr)) :
    List (PyStr × PyStr) × Nat × Bool :=
  run_aux start replies

/-- A string with every whitespace character removed: comparison modulo
whitespace normalization. -/
def noWs (s : PyStr) : PyStr := s.filter (fun c => !isWs c)

/-! ## Helper lemmas on the string primitives -/

theorem noWs_nil : noWs [] = [] := rfl

theorem noWs_append (a b : PyStr) : noWs (a ++ b) = noWs a ++ noWs b :=
  List.filter_append ..

theorem noWs_flatten (ll : List PyStr) :
    noWs ll.flatten = (ll.map noWs).flatten := by
  induction ll with
  | nil => rfl
  | cons x xs ih => simp [List.flatten_cons, noWs_append, ih]

theorem noWs_dropWhile (l : PyStr) : noWs (l.dropWhile isWs) = noWs l := by
  induction l with
  | nil => rfl
  | cons c l ih =>
    by_cases h : isWs c = true
    · rw [List.dropWhile_cons_of_pos h, ih]
      simp [noWs, List.filter_cons, h]
    · rw [List.dropWhile_cons_of_neg h]

theorem noWs_reverse (l : PyStr) : noWs l.reverse = (noWs l).reverse :=
  List.filter_reverse _ l

theorem noWs_lstrip (s : PyStr) : noWs (py_lstrip s) = noWs s :=
  noWs_dropWhile s

theorem noWs_rstrip (s : PyStr) : noWs (py_rstrip s) = noWs s := by
  unfold py_rstrip
  rw [noWs_reverse, noWs_dropWhile, noWs_reverse, List.reverse_reverse]

theorem noWs_strip (s : PyStr) : noWs (py_strip s) = noWs s := by
  unfold py_strip
  rw [noWs_lstrip, noWs_rstrip]

theorem leadsWith_append {p l : PyStr} (h : leadsWith p l = true) :
    p ++ List.drop p.length l = l := by
  induction p generalizing l with
  | nil => simp
  | cons a ps ih =>
    cases l with
    | nil => simp [leadsWith] at h
    | cons c cs =>
      simp only [leadsWith, Bool.and_eq_true, beq_iff_eq] at h
      obtain ⟨rfl, h2⟩ := h
      simpa using ih h2

theorem splitGo_ne_nil (sp : PyStr) :
    ∀ (fuel : Nat) (l acc : PyStr), splitGo sp fuel l acc ≠ [] := by
  intro fuel
  induction fuel with
  | zero => intro l acc; simp [splitGo]
  | succ fuel ih =>
    intro l acc
    cases l with
    | nil => simp [splitGo]
    | cons c rest =>
      rw [splitGo]
      split
      · simp
      · exact ih rest (c :: acc)

theorem sepJoin_splitGo (sp : PyStr) :
    ∀ (fuel : Nat) (l acc : PyStr),
      sepJoin sp (splitGo sp fuel l acc) = acc.reverse ++ l := by
  intro fuel
  induction fuel with
  | zero => intro l acc; simp [splitGo, sepJoin]
  | succ fuel ih =>
    intro l acc
    cases l with
    | nil => simp [splitGo, sepJoin]
    | cons c rest =>
      rw [splitGo]
      split
      · rename_i h
        obtain ⟨y, ys, hy⟩ := List.exists_cons_of_ne_nil
          (splitGo_ne_nil sp fuel (List.drop sp.length (c :: rest)) [])
        rw [hy, sepJoin, ← hy, ih]
        simp only [List.reverse_nil, List.nil_append, List.append_assoc]
        rw [leadsWith_append h.2]
      · rw [ih]
        simp

theorem py_split_join (sp s : PyStr) : sepJoin sp (py_split sp s) = s := by
  simpa using sepJoin_splitGo sp (s.length + 1) s []

theorem py_split_ne_nil (sp s : PyStr) : py_split sp s ≠ [] :=
  splitGo_ne_nil sp (s.length + 1) s []

theorem dotJoin_cons (s : PyStr) (l : List PyStr) :
    dotJoin (s :: l) = s ++ sepDot ++ dotJoin l := by
  simp [dotJoin]

theorem dotJoin_eq {l : List PyStr} (h : l ≠ []) :
    dotJoin l = sepJoin sepDot l ++ sepDot := by
  induction l with
  | nil => exact absurd rfl h
  | cons x xs ih =>
    cases xs with
    | nil => simp [dotJoin, sepJoin]
    | cons y ys =>
      rw [dotJoin_cons, ih (by simp), sepJoin]
      simp [List.append_assoc]

theorem replaceGo_single (a b : Char) :
    ∀ (fuel : Nat) (l : PyStr), l.length < fuel →
      replaceGo [a] [b] fuel l = l.map (fun c => if c = a then b else c) := by
  intro fuel
  induction fuel with
  | zero => intro l h; exact absurd h (Nat.not_lt_zero _)
  | succ fuel ih =>
    intro l h
    cases l with
    | nil => simp [replaceGo]
    | cons c rest =>
      simp only [List.length_cons] at h
      rw [replaceGo]
      by_cases hac : a = c
      · subst hac
        rw [if_pos ⟨by simp, by simp [leadsWith]⟩]
        simp [ih rest (by omega)]
      · have hc : ¬(c = a) := fun hcc => hac hcc.symm
        rw [if_neg (by simp [leadsWith, hac])]
        simp only [List.map_cons, if_neg hc, ih rest (by omega)]

theorem py_replace_single (a b : Char) (s : PyStr) :
    py_replace [a] [b] s = s.map (fun c => if c = a then b else c) :=
  replaceGo_single a b (s.length + 1) s (Nat.lt_succ_self _)

theorem nlToSpace_map (t : PyStr) :
    nlToSpace t = t.map (fun c => if c = '\n' then ' ' else c) :=
  py_replace_single '\n' ' ' t

theorem nlToSpace_length (t : PyStr) : (nlToSpace t).length = t.length := by
  rw [nlToSpace_map]; exact List.length_map ..

theorem noWs_nlToSpace (t : PyStr) : noWs (nlToSpace t) = noWs t := by
  rw [nlToSpace_map]
  induction t with
  | nil => rfl
  | cons c rest ih =>
    by_cases h : c = '\n'
    · subst h; simpa [noWs, List.filter_cons, isWs] using ih
    · simp only [List.map_cons, if_neg h, noWs, List.filter_cons] at ih ⊢
      rw [ih]

theorem py_rstrip_append_space (w : PyStr) :
    py_rstrip (w ++ [' ']) = py_rstrip w := by
  unfold py_rstrip
  rw [List.reverse_append]
  simp [List.dropWhile_cons, isWs]

theorem py_strip_append_space (w : PyStr) :
    py_strip (w ++ [' ']) = py_strip w := by
  unfold py_strip
  rw [py_rstrip_append_space]

theorem py_lstrip_length_le (s : PyStr) : (py_lstrip s).length ≤ s.length :=
  (List.dropWhile_sublist isWs).length_le

theorem py_rstrip_length_le (s : PyStr) : (py_rstrip s).length ≤ s.length := by
  unfold py_rstrip
  rw [List.length_reverse]
  calc (s.reverse.dropWhile isWs).length ≤ s.reverse.length :=
        (List.dropWhile_sublist isWs).length_le
    _ = s.length := List.length_reverse s

theorem py_strip_length_le (s : PyStr) : (py_strip s).length ≤ s.length :=
  le_trans (py_lstrip_length_le _) (py_rstrip_length_le s)

theorem py_index_position (s : PyStr) :
    ∀ pre rest : List PyStr, (pre ++ s :: rest).Nodup →
      py_index (pre ++ s :: rest) s = pre.length := by
  intro pre
  induction pre with
  | nil => intro rest _; simp [py_index]
  | cons a pre ih =>
    intro rest hnd
    have hne : a ≠ s := by
      intro h
      subst h
      exact (List.nodup_cons.mp hnd).1 (by simp)
    simpa [py_index, hne] using ih rest (List.nodup_cons.mp hnd).2

theorem drop_position (s : PyStr) (pre rest : List PyStr) :
    List.drop (pre.length + 1) (pre ++ s :: rest) = rest := by
  induction pre with
  | nil => simp
  | cons a pre ih => simpa using ih

/-! ## Chunker lemmas -/

theorem remainingOf_eq (all : List PyStr) (s : PyStr) (pre rest : List PyStr)
    (hall : all = pre ++ s :: rest) (hnd : all.Nodup) :
    remainingOf all s = (s ++ sepDot) ++ dotJoin rest := by
  unfold remainingOf
  rw [hall, py_index_position s pre rest (hall ▸ hnd), drop_position]

theorem chunkLoop_noWs (all : List PyStr) (mx : Nat) (hnd : all.Nodup) :
    ∀ (rest : List PyStr) (cur : PyStr) (pre : List PyStr), all = pre ++ rest →
      noWs (chunkLoop all mx rest cur).flatten = noWs cur ++ noWs (dotJoin rest) := by
  intro rest
  induction rest with
  | nil =>
    intro cur pre hall
    by_cases hcur : cur = []
    · subst hcur; simp [chunkLoop, dotJoin, noWs]
    · simp [chunkLoop, if_neg hcur, dotJoin, noWs_strip, noWs_nil]
  | cons s rest ih =>
    intro cur pre hall
    have hrem : remainingOf all s = (s ++ sepDot) ++ dotJoin rest :=
      remainingOf_eq all s pre rest hall hnd
    rw [chunkLoop]
    by_cases h1 : cur.length + s.length < mx
    · rw [if_pos h1, ih _ (pre ++ [s]) (by rw [hall]; simp)]
      rw [dotJoin_cons]
      simp [noWs_append, List.append_assoc]
    · rw [if_neg h1]
      by_cases h2 : cur = []
      · rw [if_neg (fun hh => hh h2), ih _ (pre ++ [s]) (by rw [hall]; simp)]
        subst h2
        rw [dotJoin_cons]
        simp [noWs_append, List.append_assoc, noWs]
      · rw [if_pos h2]
        by_cases h3 : (remainingOf all s).length * 5 < mx
        · rw [if_pos h3]
          rw [List.flatten, List.flatten, List.append_nil, noWs_strip,
            noWs_append, hrem, dotJoin_cons]
        · rw [if_neg h3, List.flatten, noWs_append, noWs_strip,
            ih _ (pre ++ [s]) (by rw [hall]; simp), dotJoin_cons]
          simp [noWs_append, List.append_assoc]

theorem chunkLoop_agrees (all : List PyStr) (mx : Nat) (hnd : all.Nodup) :
    ∀ (rest : List PyStr) (cur : PyStr) (pre : List PyStr), all = pre ++ rest →
      chunkLoop all mx rest cur = chunkLoopSpec mx rest cur := by
  intro rest
  induction rest with
  | nil => intro cur pre _; rfl
  | cons s rest ih =>
    intro cur pre hall
    have hrem : remainingOf all s = (s ++ sepDot) ++ dotJoin rest :=
      remainingOf_eq all s pre rest hall hnd
    rw [chunkLoop, chunkLoopSpec]
    by_cases h1 : cur.length + s.length < mx
    · rw [if_pos h1, if_pos h1, ih _ (pre ++ [s]) (by rw [hall]; simp)]
    · rw [if_neg h1, if_neg h1]
      by_cases h2 : cur = []
      · rw [if_neg (fun hh => hh h2), if_neg (fun hh => hh h2),
          ih _ (pre ++ [s]) (by rw [hall]; simp)]
      · rw [if_pos h2, if_pos h2, hrem]
        by_cases h3 : ((s ++ sepDot) ++ dotJoin rest).length * 5 < mx
        · rw [if_pos h3, if_pos h3]
        · rw [if_neg h3, if_neg h3, ih _ (pre ++ [s]) (by rw [hall]; simp)]

theorem py_strip_concat_space_length {cur : PyStr} (w : PyStr)
    (hw : cur = w ++ [' ']) : (py_strip cur).length ≤ w.length := by
  rw [hw, py_strip_append_space]
  exact py_strip_length_le w

theorem py_rstrip_append_sepDot (y : PyStr) :
    py_rstrip (y ++ sepDot) = y ++ ['.'] := by
  unfold py_rstrip
  have hrev : (y ++ sepDot).reverse = ' ' :: '.' :: y.reverse := by
    simp [sepDot]
  rw [hrev, List.dropWhile_cons_of_pos (by decide),
    List.dropWhile_cons_of_neg (by decide)]
  simp

theorem py_lstrip_append_cons (a : PyStr) {b : Char} (l : PyStr)
    (hb : isWs b = false) :
    py_lstrip (a ++ b :: l) = py_lstrip a ++ b :: l := by
  induction a with
  | nil =>
    show py_lstrip (b :: l) = py_lstrip [] ++ b :: l
    unfold py_lstrip
    rw [List.dropWhile_cons_of_neg (by simp [hb])]
    rfl
  | cons x a ih =>
    by_cases hx : isWs x = true
    · unfold py_lstrip at ih ⊢
      rw [List.cons_append, List.dropWhile_cons_of_pos hx,
        List.dropWhile_cons_of_pos hx, ih]
    · unfold py_lstrip at ih ⊢
      rw [List.cons_append, List.dropWhile_cons_of_neg hx,
        List.dropWhile_cons_of_neg hx]
      simp

theorem chunkLoop_ne_nil (all : List PyStr) (mx : Nat) :
    ∀ (rest : List PyStr) (cur : PyStr), cur ≠ [] →
      chunkLoop all mx rest cur ≠ [] := by
  intro rest
  induction rest with
  | nil => intro cur hcur; simp [chunkLoop, hcur]
  | cons s rest ih =>
    intro cur hcur
    rw [chunkLoop]
    by_cases h1 : cur.length + s.length < mx
    · rw [if_pos h1]
      exact ih _ (by simp [sepDot])
    · rw [if_neg h1, if_pos hcur]
      by_cases h3 : (remainingOf all s).length * 5 < mx
      · rw [if_pos h3]; simp
      · rw [if_neg h3]; simp

theorem dotJoin_sep_ends : ∀ (l : List PyStr) (s : PyStr),
    ∃ w, (s ++ sepDot) ++ dotJoin l = w ++ sepDot := by
  intro l
  induction l with
  | nil => intro s; exact ⟨s, by simp [dotJoin]⟩
  | cons x l ih =>
    intro s
    obtain ⟨w, hw⟩ := ih (s ++ sepDot ++ x)
    refine ⟨w, ?_⟩
    rw [dotJoin_cons, ← hw]
    simp [List.append_assoc]

theorem remainingOf_sep_ends (all : List PyStr) (s : PyStr) :
    ∃ w, remainingOf all s = w ++ sepDot := by
  unfold remainingOf
  exact dotJoin_sep_ends _ s

theorem strip_cur_bound {all : List PyStr} {mx : Nat} {cur : PyStr}
    (hwsp : ∃ w, cur = w ++ [' '])
    (hcase : cur.length ≤ mx + 1 ∨
      ∃ t ∈ all, mx ≤ t.length ∧ cur = t ++ sepDot) :
    (py_strip cur).length ≤ mx
    ∨ ∃ t ∈ all, mx ≤ (py_lstrip t).length ∧
        ∃ u, py_strip cur = py_lstrip t ++ u := by
  rcases hcase with hlen | ⟨t, htmem, _, hteq⟩
  · left
    obtain ⟨w, hw⟩ := hwsp
    have h1 := py_strip_concat_space_length w hw
    have h2 : w.length = cur.length - 1 := by rw [hw]; simp
    omega
  · have hc : py_strip cur = py_lstrip t ++ ['.'] := by
      rw [hteq]
      unfold py_strip
      rw [py_rstrip_append_sepDot, py_lstrip_append_cons t [] (by decide)]
    by_cases hge : mx ≤ (py_lstrip t).length
    · right
      exact ⟨t, htmem, hge, ['.'], hc⟩
    · left
      rw [hc, List.length_append]
      simp only [List.length_cons, List.length_nil]
      omega

theorem chunkLoop_bound (all : List PyStr) (mx : Nat) :
    ∀ (rest : List PyStr) (cur : PyStr) (pre : List PyStr), all = pre ++ rest →
      (cur = [] ∨ ((∃ w, cur = w ++ [' ']) ∧
        (cur.length ≤ mx + 1 ∨ ∃ t ∈ all, mx ≤ t.length ∧ cur = t ++ sepDot))) →
      ∀ c ∈ chunkLoop all mx rest cur,
        c.length ≤ mx
        ∨ (∃ t ∈ all, mx ≤ (py_lstrip t).length ∧ ∃ u, c = py_lstrip t ++ u)
        ∨ ((chunkLoop all mx rest cur).getLast? = some c ∧
            5 * c.length ≤ 6 * mx + 4) := by
  intro rest
  induction rest with
  | nil =>
    intro cur pre _ hinv c hc
    by_cases hcur : cur = []
    · simp [chunkLoop, hcur] at hc
    · rw [chunkLoop, if_neg hcur] at hc
      rcases hinv with h | ⟨hwsp, hcase⟩
      · exact absurd h hcur
      rcases List.mem_singleton.mp hc with rfl
      rcases strip_cur_bound hwsp hcase with h | h
      · exact Or.inl h
      · exact Or.inr (Or.inl h)
  | cons s rest ih =>
    intro cur pre hall hinv c hc
    have hsmem : s ∈ all := by rw [hall]; simp
    have hinvs : s ++ sepDot = [] ∨ ((∃ w, s ++ sepDot = w ++ [' ']) ∧
        ((s ++ sepDot).length ≤ mx + 1 ∨
          ∃ t ∈ all, mx ≤ t.length ∧ s ++ sepDot = t ++ sepDot)) := by
      right
      refine ⟨⟨s ++ ['.'], by simp [sepDot]⟩, ?_⟩
      by_cases hs : mx ≤ s.length
      · exact Or.inr ⟨s, hsmem, hs, rfl⟩
      · left
        simp only [List.length_append, sepDot, List.length_cons,
          List.length_nil]
        omega
    rw [chunkLoop] at hc ⊢
    by_cases h1 : cur.length + s.length < mx
    · rw [if_pos h1] at hc ⊢
      refine ih _ (pre ++ [s]) (by rw [hall]; simp) ?_ c hc
      right
      refine ⟨⟨cur ++ s ++ ['.'], by simp [sepDot]⟩, Or.inl ?_⟩
      simp only [List.length_append, sepDot, List.length_cons, List.length_nil]
      omega
    · rw [if_neg h1] at hc ⊢
      by_cases h2 : cur = []
      · rw [if_neg (fun hh => hh h2)] at hc ⊢
        exact ih _ (pre ++ [s]) (by rw [hall]; simp) hinvs c hc
      · rw [if_pos h2] at hc ⊢
        rcases hinv with h | ⟨hwsp, hcase⟩
        · exact absurd h h2
        by_cases h3 : (remainingOf all s).length * 5 < mx
        · rw [if_pos h3] at hc ⊢
          rcases List.mem_singleton.mp hc with rfl
          rcases hcase with hlen | ⟨t, htmem, _, hteq⟩
          · right; right
            refine ⟨rfl, ?_⟩
            have hs : (py_strip (cur ++ remainingOf all s)).length
                ≤ cur.length + (remainingOf all s).length := by
              calc (py_strip (cur ++ remainingOf all s)).length
                  ≤ (cur ++ remainingOf all s).length := py_strip_length_le _
                _ = cur.length + (remainingOf all s).length := by simp
            omega
          · obtain ⟨w, hRw⟩ := remainingOf_sep_ends all s
            have hceq : py_strip (cur ++ remainingOf all s)
                = py_lstrip t ++ '.' :: ' ' :: (w ++ ['.']) := by
              rw [hteq, hRw]
              have hassoc : (t ++ sepDot) ++ (w ++ sepDot)
                  = (t ++ sepDot ++ w) ++ sepDot := by
                simp [List.append_assoc]
              rw [hassoc]
              unfold py_strip
              rw [py_rstrip_append_sepDot]
              have hassoc2 : (t ++ sepDot ++ w) ++ ['.']
                  = t ++ '.' :: (' ' :: (w ++ ['.'])) := by
                simp [sepDot, List.append_assoc]
              rw [hassoc2, py_lstrip_append_cons t _ (by decide)]
            by_cases hge : mx ≤ (py_lstrip t).length
            · right; left
              exact ⟨t, htmem, hge, _, hceq⟩
            · right; right
              refine ⟨rfl, ?_⟩
              have hclen : (py_strip (cur ++ remainingOf all s)).length
                  = (py_lstrip t).length + (w.length + 3) := by
                rw [hceq]
                simp only [List.length_append, List.length_cons,
                  List.length_nil]
              have hRlen : (remainingOf all s).length = w.length + 2 := by
                rw [hRw]
                simp [sepDot]
              omega
        · rw [if_neg h3] at hc ⊢
          rcases List.mem_cons.mp hc with rfl | hc'
          · rcases strip_cur_bound hwsp hcase with h | h
            · exact Or.inl h
            · exact Or.inr (Or.inl h)
          · rcases ih _ (pre ++ [s]) (by rw [hall]; simp) hinvs c hc'
              with h | h | ⟨hlast, hbound⟩
            · exact Or.inl h
            · exact Or.inr (Or.inl h)
            · right; right
              refine ⟨?_, hbound⟩
              have hne : chunkLoop all mx rest (s ++ sepDot) ≠ [] :=
                chunkLoop_ne_nil all mx rest _ (by simp [sepDot])
              obtain ⟨y, ys, hy⟩ := List.exists_cons_of_ne_nil hne
              rw [hy, List.getLast?_cons_cons, ← hy]
              exact hlast

theorem splitGo_sep_absent (sp : PyStr) :
    ∀ (fuel : Nat) (l acc : PyStr), ¬ List.IsInfix sp l →
      splitGo sp fuel l acc = [acc.reverse ++ l] := by
  intro fuel
  induction fuel with
  | zero => intro l acc _; simp [splitGo]
  | succ fuel ih =>
    intro l acc hinf
    cases l with
    | nil => simp [splitGo]
    | cons c rest =>
      rw [splitGo]
      split
      · rename_i h
        exact absurd ⟨[], List.drop sp.length (c :: rest),
          by simpa using leadsWith_append h.2⟩ hinf
      · rw [ih rest (c :: acc) (fun hx => hinf (List.infix_cons hx))]
        simp

/-! ## Claims C1–C4 and C10: the chunker -/

/-- Claim C1, counterexample.  Chunks do *not* always preserve the sentence
sequence: `sentences.index(sentence)` finds the first occurrence of the
overflowing sentence's value, so with the duplicate sentence `"x"` the merged
tail re-appends the already-consumed sentences — `'y'` occurs once in the
input but twice in the concatenation of the returned chunks. -/
theorem c1_counterexample :
    List.count 'y'
      (chunk_text (pys "aaaaaaaaaaaaaaaaaaaaaaaaaaaaaaaaaaaaaaaaaaaaaaaaaaaaa. x. y. x. z") 61).flatten = 2
    ∧ List.count 'y'
      (pys "aaaaaaaaaaaaaaaaaaaaaaaaaaaaaaaaaaaaaaaaaaaaaaaaaaaaa. x. y. x. z") = 1 :=
  ⟨by decide, by decide⟩

/-- Claim C1, amended: when no two candidate sentences are equal (so the
first-occurrence lookup finds the true position), the concatenation of the
chunks of a long text reconstructs the text up to whitespace normalization,
with one final `'.'` appended; in particular no sentence is lost, duplicated
or reordered, and the chunks partition the text in source order. -/
theorem c1_amended (text : PyStr) (mx : Nat) (hmx : 0 < mx)
    (hnd : (sentencesOf text).Nodup) :
    noWs (chunk_text text mx).flatten
      = noWs text ++ (if text.length ≤ mx then [] else ['.']) := by
  unfold chunk_text
  by_cases h : text.length ≤ mx
  · rw [if_pos h, if_pos h]
    simp
  · rw [if_neg h, if_neg h]
    rw [chunkLoop_noWs (sentencesOf text) mx hnd (sentencesOf text) [] [] rfl]
    have hne : sentencesOf text ≠ [] := py_split_ne_nil sepDot (nlToSpace text)
    rw [noWs_nil, List.nil_append, dotJoin_eq hne, noWs_append]
    unfold sentencesOf
    rw [py_split_join, noWs_nlToSpace]
    congr 1

/-- Witness for `c1_amended` at a concrete input. -/
theorem c1_amended_witness :
    0 < 7 ∧ (sentencesOf (pys "ab. cd. ef")).Nodup ∧
    noWs (chunk_text (pys "ab. cd. ef") 7).flatten
      = noWs (pys "ab. cd. ef")
        ++ (if (pys "ab. cd. ef").length ≤ 7 then [] else ['.']) :=
  ⟨by decide, by decide, c1_amended (pys "ab. cd. ef") 7 (by decide) (by decide)⟩

/-- Claim C2, counterexample.  The tail computed on overflow is **not** the
overflowing sentence plus the actually remaining sentences: with a duplicate
sentence the code's first-occurrence lookup yields a different tail, and the
output differs from that of the loop the claim describes
(`chunk_text_spec`). -/
theorem c2_counterexample :
    chunk_text (pys "aaaaaaaaaaaaaaaaaaaaaaaaaaaaaaaaaaaaaaaaaaaaaaaaaaaaa. x. y. x. z") 61
      ≠ chunk_text_spec (pys "aaaaaaaaaaaaaaaaaaaaaaaaaaaaaaaaaaaaaaaaaaaaaaaaaaaaa. x. y. x. z") 61 := by
  decide

/-- Claim C2, amended: the tail is computed from the first occurrence of the
overflowing sentence's value in the sentence list; when all candidate
sentences are pairwise distinct this is the actual remainder and the chunker
behaves exactly as the claim describes (merge the tail and stop when it is
under 20% of the bound, otherwise push the trimmed chunk and start a new one
with the overflowing sentence). -/
theorem c2_amended (text : PyStr) (mx : Nat)
    (hnd : (sentencesOf text).Nodup) :
    chunk_text text mx = chunk_text_spec text mx := by
  unfold chunk_text chunk_text_spec
  by_cases h : text.length ≤ mx
  · rw [if_pos h, if_pos h]
  · rw [if_neg h, if_neg h]
    exact chunkLoop_agrees (sentencesOf text) mx hnd (sentencesOf text) [] [] rfl

/-- Witness for `c2_amended` at a concrete input. -/
theorem c2_amended_witness :
    (sentencesOf (pys "ab. cd. ef")).Nodup ∧
    chunk_text (pys "ab. cd. ef") 7 = chunk_text_spec (pys "ab. cd. ef") 7 :=
  ⟨by decide, c2_amended (pys "ab. cd. ef") 7 (by decide)⟩

/-- Claim C3, counterexample.  A returned chunk can exceed `maxLength` even
though every candidate sentence is strictly below the bound: the tail-merge
appends up to 20% of `maxLength` to an almost-full chunk (here a chunk of
length 22 for bound 20, with sentence lengths 18 and 1). -/
theorem c3_counterexample :
    ((chunk_text (pys "aaaaaaaaaaaaaaaaaa. b") 20).all
        (fun c => c.length ≤ 20)) = false
    ∧ ((sentencesOf (pys "aaaaaaaaaaaaaaaaaa. b")).all
        (fun s => s.length < 20)) = true :=
  ⟨by decide, by decide⟩

/-- Claim C3, amended: every returned chunk has length at most `maxLength`
except (a) chunks containing a candidate sentence that itself reaches the
bound — the oversized sentence is passed through unsplit and, after the
chunk trimming, the chunk *begins with* that (left-trimmed, still
oversized) sentence — and (b) the **final** chunk when it is produced by the
tail merge, which can exceed the bound by just under 20% of `maxLength`
(`5·len ≤ 6·maxLength + 4`). -/
theorem c3_amended (text : PyStr) (mx : Nat) :
    ∀ c ∈ chunk_text text mx,
      c.length ≤ mx
      ∨ (∃ t ∈ sentencesOf text, mx ≤ (py_lstrip t).length ∧
          ∃ u, c = py_lstrip t ++ u)
      ∨ ((chunk_text text mx).getLast? = some c ∧
          5 * c.length ≤ 6 * mx + 4) := by
  intro c hc
  unfold chunk_text at hc ⊢
  by_cases h : text.length ≤ mx
  · rw [if_pos h] at hc
    rcases List.mem_singleton.mp hc with rfl
    exact Or.inl h
  · rw [if_neg h] at hc ⊢
    exact chunkLoop_bound (sentencesOf text) mx (sentencesOf text) [] []
      rfl (Or.inl rfl) c hc

/-- Witness for `c3_amended` at a concrete input. -/
theorem c3_amended_witness :
    pys "ab. cd." ∈ chunk_text (pys "ab. cd. ef") 7 ∧
    ((pys "ab. cd.").length ≤ 7
      ∨ (∃ t ∈ sentencesOf (pys "ab. cd. ef"), 7 ≤ (py_lstrip t).length ∧
          ∃ u, pys "ab. cd." = py_lstrip t ++ u)
      ∨ ((chunk_text (pys "ab. cd. ef") 7).getLast? = some (pys "ab. cd.") ∧
          5 * (pys "ab. cd.").length ≤ 6 * 7 + 4)) :=
  ⟨by decide, c3_amended (pys "ab. cd. ef") 7 (pys "ab. cd.") (by decide)⟩

/-- Claim C4, counterexample.  For a short text the code returns `[text]`
itself, **not** `[text.strip()]`: line 27 is `return [text]` with no
trimming. -/
theorem c4_counterexample :
    chunk_text (pys " a ") 5 ≠ [py_strip (pys " a ")] := by
  decide

/-- Claim C4, amended: for every text with `len(text) <= maxLength` and
`maxLength > 0`, `chunk_text` returns the single-element sequence containing
the text unchanged (untrimmed). -/
theorem c4_amended (text : PyStr) (mx : Nat) (hmx : 0 < mx)
    (hlen : text.length ≤ mx) :
    chunk_text text mx = [text] := by
  unfold chunk_text
  rw [if_pos hlen]

/-- Witness for `c4_amended` at a concrete input. -/
theorem c4_amended_witness :
    0 < 5 ∧ (pys " a ").length ≤ 5 ∧ chunk_text (pys " a ") 5 = [pys " a "] :=
  ⟨by decide, by decide, c4_amended (pys " a ") 5 (by decide) (by decide)⟩

/-- Claim C10, confirmed: a text longer than the bound with no occurrence of
the `". "` delimiter is returned as a single chunk — the whole
newline-normalized text (trimmed, with the trailing `". "` appended by the
loop and stripped to `'.'`), so the bound is not enforced on it and it ends
in a `'.'` even if the original text did not. -/
theorem c10_single_sentence (text : PyStr) (mx : Nat) (hmx : mx < text.length)
    (hinf : ¬ List.IsInfix sepDot (nlToSpace text)) :
    chunk_text text mx = [py_strip (nlToSpace text ++ sepDot)] ∧
      (py_strip (nlToSpace text ++ sepDot)).getLast? = some '.' := by
  constructor
  · unfold chunk_text
    rw [if_neg (by omega)]
    have hsent : sentencesOf text = [nlToSpace text] := by
      unfold sentencesOf py_split
      rw [splitGo_sep_absent sepDot ((nlToSpace text).length + 1) (nlToSpace text) [] hinf]
      rfl
    rw [hsent, chunkLoop]
    rw [if_neg (by rw [nlToSpace_length]; simpa using Nat.not_lt.mpr (Nat.le_of_lt hmx)),
      if_neg (fun hh => hh rfl), chunkLoop]
    rw [if_neg (by simp [sepDot])]
  · have h1 : py_rstrip (nlToSpace text ++ sepDot) = nlToSpace text ++ ['.'] := by
      unfold py_rstrip
      have hrev : (nlToSpace text ++ sepDot).reverse
          = ' ' :: '.' :: (nlToSpace text).reverse := by
        simp [sepDot]
      rw [hrev, List.dropWhile_cons_of_pos (by decide),
        List.dropWhile_cons_of_neg (by decide)]
      simp
    unfold py_strip py_lstrip
    rw [h1]
    have hne : (nlToSpace text ++ ['.']).dropWhile isWs ≠ [] := by
      intro hnil
      have h3 := (List.dropWhile_eq_nil_iff).mp hnil '.' (by simp)
      simp [isWs] at h3
    obtain ⟨t, ht⟩ := List.dropWhile_suffix (l := nlToSpace text ++ ['.']) isWs
    have h2 : (List.dropWhile isWs (nlToSpace text ++ ['.'])).getLast?
        = (nlToSpace text ++ ['.']).getLast? := by
      conv_rhs => rw [← ht]
      rw [List.getLast?_append_of_ne_nil _ hne]
    rw [h2, List.getLast?_concat]

/-- Witness for `c10_single_sentence` at a concrete input. -/
theorem c10_witness :
    3 < (pys "abcdef").length ∧
    (¬ List.IsInfix sepDot (nlToSpace (pys "abcdef"))) ∧
    (chunk_text (pys "abcdef") 3 = [py_strip (nlToSpace (pys "abcdef") ++ sepDot)] ∧
      (py_strip (nlToSpace (pys "abcdef") ++ sepDot)).getLast? = some '.') :=
  ⟨by decide, by decide,
    c10_single_sentence (pys "abcdef") 3 (by decide) (by decide)⟩

/-! ## Claim C7: the line extractor -/

theorem mem_of_mem_rstrip {c : Char} {s : PyStr} (h : c ∈ py_rstrip s) :
    c ∈ s := by
  unfold py_rstrip at h
  rw [List.mem_reverse] at h
  exact List.mem_reverse.mp ((List.dropWhile_sublist isWs).subset h)

theorem mem_of_mem_strip {c : Char} {s : PyStr} (h : c ∈ py_strip s) :
    c ∈ s := by
  unfold py_strip py_lstrip at h
  exact mem_of_mem_rstrip ((List.dropWhile_sublist isWs).subset h)

theorem idxOfChar_zero_head {l : PyStr} {a : Char} (hm : a ∈ l)
    (h0 : idxOfChar l a = 0) : ∃ t, l = a :: t := by
  cases l with
  | nil => simp at hm
  | cons c rest =>
    by_cases hc : c == a
    · exact ⟨rest, by rw [(beq_iff_eq ..).mp hc]⟩
    · rw [idxOfChar, if_neg (by simp_all)] at h0
      omega

theorem takeWhile_dot_length_ne {l : PyStr} (hm : '.' ∈ l) :
    (l.takeWhile (fun c => !(c == '.'))).length ≠ l.length := by
  intro hlen
  have heq : l.takeWhile (fun c => !(c == '.')) = l :=
    (List.takeWhile_sublist _).eq_of_length hlen
  have := List.mem_takeWhile_imp (heq ▸ hm)
  simp at this

/-- The condition `write_lines` actually computes for a `'.'` — digit in the
one-character slice before the first `'.'` of the line — equals
`firstDotAfterDigit`. -/
theorem dot_slice_eq (line : PyStr) (hmem : '.' ∈ line) :
    ((pySlice line (idxOfChar line '.' - 1) (idxOfChar line '.')).any Char.isDigit)
      = firstDotAfterDigit line := by
  induction line with
  | nil => simp at hmem
  | cons c rest ih =>
    by_cases hc : c = '.'
    · subst hc
      rw [idxOfChar, if_pos (by simp)]
      simp [pySlice, firstDotAfterDigit]
    · have hcb : (c == '.') = false := by simp [hc]
      have hmr : '.' ∈ rest := by
        rcases List.mem_cons.mp hmem with h | h
        · exact absurd h.symm hc
        · exact h
      rw [idxOfChar, if_neg (by simp [hc])]
      by_cases hi : idxOfChar rest '.' = 0
      · obtain ⟨t, ht⟩ := idxOfChar_zero_head hmr hi
        subst ht
        rw [hi]
        simp only [Nat.add_sub_cancel, pySlice, firstDotAfterDigit,
          List.takeWhile_cons, hcb]
        simp [List.takeWhile_cons]
      · have hipos : 1 ≤ idxOfChar rest '.' := by omega
        have hslice : pySlice (c :: rest) (idxOfChar rest '.' + 1 - 1)
            (idxOfChar rest '.' + 1)
            = pySlice rest (idxOfChar rest '.' - 1) (idxOfChar rest '.') := by
          simp only [Nat.add_sub_cancel, pySlice, List.take_succ_cons]
          cases hn : idxOfChar rest '.' with
          | zero => omega
          | succ n => simp [List.drop_succ_cons, Nat.add_sub_cancel]
        rw [hslice, ih hmr]
        have hpre : (rest.takeWhile (fun d => !(d == '.'))) ≠ [] := by
          intro hnil
          cases hrest : rest with
          | nil => simp [hrest] at hmr
          | cons r rt =>
            rw [hrest] at hnil
            by_cases hr : r == '.'
            · rw [hrest, idxOfChar, if_pos hr] at hi
              omega
            · rw [List.takeWhile_cons, if_pos (by simp_all)] at hnil
              simp at hnil
        unfold firstDotAfterDigit
        simp only [List.takeWhile_cons, hcb, Bool.not_false, if_pos trivial,
          List.length_cons]
        rw [if_neg (by
            simpa using takeWhile_dot_length_ne hmr),
          if_neg (by
            intro hlen
            exact takeWhile_dot_length_ne hmr (by omega))]
        obtain ⟨p, ps, hps⟩ := List.exists_cons_of_ne_nil hpre
        rw [hps, List.getLast?_cons_cons]

/-- The per-line cleaning of `write_lines`, characterised without the
index/slice computation: every digit is removed, and every `'.'` is removed
precisely when the first `'.'` of the original line follows a digit. -/
theorem clean_line_char (line : PyStr) :
    clean_line line = (py_strip line).filter
      (fun c => !c.isDigit && !(c == '.' && firstDotAfterDigit line)) := by
  unfold clean_line
  apply List.filter_congr
  intro c hc
  by_cases hcd : c = '.'
  · subst hcd
    rw [dot_slice_eq line (mem_of_mem_strip hc)]
    simp [Bool.not_or]
  · have hb : (c == '.') = false := by simp [hcd]
    simp [hb, Bool.not_or]

/-- Claim C7, counterexample.  The `'.'`-removal is **not** a per-occurrence
predecessor test: `line.index(char)` always finds the *first* `'.'` of the
line, so on `"1. a.b"` the code removes *both* periods (the first follows a
digit) while the claim's rule would keep the second (it follows `'a'`). -/
theorem c7_counterexample :
    extractLines (pys "1. a.b") = [pys " ab"]
    ∧ extractLines_spec (pys "1. a.b") = [pys " a.b"]
    ∧ extractLines (pys "1. a.b") ≠ extractLines_spec (pys "1. a.b") :=
  ⟨by decide, by decide, by decide⟩

/-- Claim C7, amended: the Line Extractor splits on line boundaries, strips
each line and removes every digit; the `'.'` characters are removed all or
none per line — all of them exactly when the first `'.'` of the original
line is immediately preceded by a digit — and the cleaned lines are returned
in original order, including lines that become empty. -/
theorem c7_amended (raw : PyStr) :
    extractLines raw = (py_splitlines raw).map (fun line =>
      (py_strip line).filter
        (fun c => !c.isDigit && !(c == '.' && firstDotAfterDigit line))) := by
  unfold extractLines
  exact List.map_congr_left (fun line _ => clean_line_char line)

/-! ## Claim C5: recovery failure is non-fatal -/

theorem reply_pieces_of_parse_failure {raw : PyStr}
    (h : (json_parse (normalize_reply raw)).isNone = true) :
    reply_pieces raw = [] := by
  unfold reply_pieces
  by_cases h0 : normalize_reply raw = []
  · rw [if_pos h0]
  · rw [if_neg h0]
    cases hj : json_parse (normalize_reply raw) with
    | none => rfl
    | some v => rw [hj] at h; simp at h

/-- Claim C5, confirmed: whenever the normalised reply fails to parse
(`json.loads` raising, modelled by `json_parse` returning `none` — including
the empty-content skip), the Record Recovery Parser yields an empty record
sequence for that chunk (no exception: the model is a total function) and
processing continues with the following chunks unchanged. -/
theorem c5_parse_failure (c : Nat) (raw : PyStr)
    (h : (json_parse (normalize_reply raw)).isNone = true) :
    recover_records c raw = [] ∧
    ∀ rest, process_replies c (raw :: rest) = process_replies c rest := by
  have hp : reply_pieces raw = [] := reply_pieces_of_parse_failure h
  constructor
  · unfold recover_records
    rw [hp]
    rfl
  · intro rest
    have h1 : process_reply c raw = ([], c) := by
      unfold process_reply
      rw [hp]
      rfl
    rw [process_replies]
    simp only [h1, List.nil_append]

/-- Witness for `c5_parse_failure` at the spec's example input
`'not json at all'`. -/
theorem c5_witness :
    (json_parse (normalize_reply (pys "not json at all"))).isNone = true
    ∧ recover_records 1 (pys "not json at all") = []
    ∧ process_replies 1 [pys "not json at all"] = process_replies 1 [] :=
  ⟨by decide, (c5_parse_failure 1 (pys "not json at all") (by decide)).1,
    (c5_parse_failure 1 (pys "not json at all") (by decide)).2 []⟩

/-! ## Claim C6: single-object wrap and field defaulting -/

theorem decChar_digit (d : Nat) : (decChar d).isDigit = true := by
  unfold decChar
  split_ifs <;> decide

theorem digit_not_ws {ch : Char} (h : ch.isDigit = true) : isWs ch = false := by
  by_contra hw
  simp only [isWs, Bool.or_eq_true, beq_iff_eq, Bool.not_eq_false] at hw
  rcases hw with ((((h1 | h1) | h1) | h1) | h1) | h1 <;> subst h1 <;>
    exact absurd h (by decide)

theorem natStrGo_ends (fuel n : Nat) :
    ∃ m d, natStrGo (fuel + 1) n = m ++ [d] ∧ d.isDigit = true := by
  rw [natStrGo]
  by_cases h : n < 10
  · exact ⟨[], decChar n, by rw [if_pos h]; rfl, decChar_digit n⟩
  · exact ⟨natStrGo fuel (n / 10), decChar (n % 10), by rw [if_neg h],
      decChar_digit _⟩

theorem natStr_ends (n : Nat) :
    ∃ m d, natStr n = m ++ [d] ∧ d.isDigit = true := by
  unfold natStr
  exact natStrGo_ends n n

theorem py_lstrip_cons_of_neg {c : Char} (hc : isWs c = false) (l : PyStr) :
    py_lstrip (c :: l) = c :: l :=
  List.dropWhile_cons_of_neg (by simp [hc])

theorem py_rstrip_concat_of_neg {d : Char} (hd : isWs d = false) (l : PyStr) :
    py_rstrip (l ++ [d]) = l ++ [d] := by
  unfold py_rstrip
  rw [List.reverse_append]
  simp only [List.reverse_cons, List.reverse_nil, List.nil_append,
    List.singleton_append, List.dropWhile_cons_of_neg (by simp [hd] : ¬(isWs d = true))]
  simp

theorem py_strip_of_ends {s : PyStr} {c d : Char} {m0 m1 : PyStr}
    (hhead : s = c :: m0) (hlast : s = m1 ++ [d])
    (hc : isWs c = false) (hd : isWs d = false) :
    py_strip s = s := by
  unfold py_strip
  conv_lhs => rw [hlast]
  rw [py_rstrip_concat_of_neg hd, ← hlast, hhead, py_lstrip_cons_of_neg hc]

theorem py_rstrip_ends (s : PyStr) :
    py_rstrip s = [] ∨ ∃ m d, py_rstrip s = m ++ [d] ∧ isWs d = false := by
  unfold py_rstrip
  cases h : List.dropWhile isWs s.reverse with
  | nil => left; rfl
  | cons x t =>
    right
    have hx : isWs x = false := by
      have h2 := List.head?_dropWhile_not isWs s.reverse
      rw [h] at h2
      simpa using h2
    exact ⟨t.reverse, x, by simp, hx⟩

theorem py_strip_idem (s : PyStr) : py_strip (py_strip s) = py_strip s := by
  cases hX : py_strip s with
  | nil => rfl
  | cons c t =>
    have hXd : py_strip s = List.dropWhile isWs (py_rstrip s) := rfl
    have hc : isWs c = false := by
      have h2 := List.head?_dropWhile_not isWs (py_rstrip s)
      rw [← hXd, hX] at h2
      simpa using h2
    have hRne : py_rstrip s ≠ [] := by
      intro hnil
      rw [hXd, hnil] at hX
      simp at hX
    rcases py_rstrip_ends s with h | ⟨m, d, hmd, hd⟩
    · exact absurd h hRne
    have hlast : (c :: t).getLast? = some d := by
      obtain ⟨u, hu⟩ := List.dropWhile_suffix (l := py_rstrip s) isWs
      rw [← hXd, hX] at hu
      have h3 := List.getLast?_append_of_ne_nil u
        (show (c :: t) ≠ [] by simp)
      rw [hu, hmd, List.getLast?_concat] at h3
      exact h3.symm
    have hdecomp : c :: t = (c :: t).dropLast ++ [d] := by
      have h4 := List.dropLast_append_getLast (l := c :: t) (by simp)
      have h5 : (c :: t).getLast (by simp) = d := by
        have h6 := List.getLast?_eq_getLast (c :: t) (by simp)
        rw [hlast] at h6
        exact (Option.some_injective _ h6.symm)
      rw [← h5]
      exact h4.symm
    exact py_strip_of_ends rfl hdecomp hc hd

theorem py_strip_pieceDflt (c : Nat) :
    py_strip (pys "piece_" ++ natStr c) = pys "piece_" ++ natStr c := by
  obtain ⟨m, d, hmd, hdig⟩ := natStr_ends c
  have hhead : pys "piece_" ++ natStr c
      = 'p' :: (pys "iece_" ++ natStr c) := rfl
  have hlast : pys "piece_" ++ natStr c = (pys "piece_" ++ m) ++ [d] := by
    rw [hmd, List.append_assoc]
  exact py_strip_of_ends hhead hlast (by decide) (digit_not_ws hdig)

theorem pieceDflt_ne_nil (c : Nat) : pys "piece_" ++ natStr c ≠ [] := by
  simp [pys]

/-- Claim C6, confirmed.  (a) recovering `'\x7b"title":"A","body":"B"\x7d'`
yields exactly one record `(A, B)` — the single object is wrapped into a
one-element array; (b, c) a title that is absent, or blank after trimming,
defaults to `piece_<counter>` at the current counter; (d) an absent body
defaults to the empty string; (e) both fields are already-trimmed strings. -/
theorem c6_single_object_and_defaults :
    (∀ c : Nat, recover_records c (pys "\x7b\"title\":\"A\",\"body\":\"B\"\x7d")
       = [⟨pys "A", pys "B"⟩])
    ∧ (∀ (c : Nat) (piece : List (PyStr × PyJson)),
        py_get piece (pys "title") = none →
        (mk_record c piece).title = pys "piece_" ++ natStr c)
    ∧ (∀ (c : Nat) (piece : List (PyStr × PyJson)) (v : PyJson),
        py_get piece (pys "title") = some v → py_strip (py_str v) = [] →
        (mk_record c piece).title = pys "piece_" ++ natStr c)
    ∧ (∀ (c : Nat) (piece : List (PyStr × PyJson)),
        py_get piece (pys "body") = none → (mk_record c piece).body = [])
    ∧ (∀ (c : Nat) (piece : List (PyStr × PyJson)),
        py_strip (mk_record c piece).title = (mk_record c piece).title ∧
        py_strip (mk_record c piece).body = (mk_record c piece).body) := by
  refine ⟨?_, ?_, ?_, ?_, ?_⟩
  · intro c
    rfl
  · intro c piece hget
    simp only [mk_record, hget, Option.getD_none, py_str, py_strip_pieceDflt,
      if_neg (pieceDflt_ne_nil c)]
  · intro c piece v hget hblank
    simp only [mk_record, hget, Option.getD_some, hblank]
    simp
  · intro c piece hget
    simp only [mk_record, hget, Option.getD_none, py_str]
    rfl
  · intro c piece
    constructor
    · simp only [mk_record]
      by_cases hb : py_strip (py_str ((py_get piece (pys "title")).getD
          (.str (pys "piece_" ++ natStr c)))) = []
      · rw [if_pos hb, py_strip_pieceDflt]
      · rw [if_neg hb, py_strip_idem]
    · simp only [mk_record, py_strip_idem]

/-- Witness for `c6_single_object_and_defaults` at concrete inputs: counter 7,
an empty dict (both fields absent) and a dict with a blank title. -/
theorem c6_witness :
    recover_records 7 (pys "\x7b\"title\":\"A\",\"body\":\"B\"\x7d")
      = [⟨pys "A", pys "B"⟩]
    ∧ (mk_record 7 []).title = pys "piece_" ++ natStr 7
    ∧ (mk_record 9 [(pys "title", PyJson.str (pys "  "))]).title
        = pys "piece_" ++ natStr 9
    ∧ (mk_record 7 []).body = [] :=
  ⟨(c6_single_object_and_defaults).1 7,
    (c6_single_object_and_defaults).2.1 7 [] rfl,
    (c6_single_object_and_defaults).2.2.1 9 [(pys "title", PyJson.str (pys "  "))]
      (PyJson.str (pys "  ")) rfl (by decide),
    (c6_single_object_and_defaults).2.2.2.1 7 [] rfl⟩

/-! ## Claims C8 and C9: counter accounting, filenames -/

theorem emit_records_eq (ps : List (List (PyStr × PyJson))) :
    ∀ c : Nat, emit_records c ps
      = ((ps.enumFrom c).map (fun q => write_piece q.1 q.2), c + ps.length) := by
  induction ps with
  | nil => intro c; simp [emit_records, List.enumFrom]
  | cons p ps ih =>
    intro c
    simp only [emit_records, ih (c + 1), List.enumFrom, List.map_cons,
      List.length_cons, Prod.mk.injEq]
    exact ⟨trivial, by omega⟩

/-- Claim C8, confirmed: on every exit path of a run — normal completion or
a generation failure aborting the remaining replies (`none` in the reply
stream) — the counter persisted by the `finally` block equals the initial
counter plus one increment per record written so far. -/
theorem c8_counter_persisted (replies : List (Option PyStr)) :
    ∀ start : Nat, (run_pipeline start replies).2.1
      = start + (run_pipeline start replies).1.length := by
  induction replies with
  | nil => intro start; simp [run_pipeline, run_aux]
  | cons r rest ih =>
    intro start
    cases r with
    | none => simp [run_pipeline, run_aux]
    | some raw =>
      have hp2 : (process_reply start raw).2
          = start + (process_reply start raw).1.length := by
        unfold process_reply
        rw [emit_records_eq]
        simp [emit_records_eq]
      simp only [run_pipeline, run_aux] at ih ⊢
      simp only [List.length_append]
      rw [ih ((process_reply start raw).2), hp2]
      omega

theorem process_replies_files (raws : List PyStr) :
    ∀ c : Nat, process_replies c raws
      = ((((raws.map reply_pieces).flatten).enumFrom c).map
          (fun q => write_piece q.1 q.2),
         c + ((raws.map reply_pieces).flatten).length) := by
  induction raws with
  | nil => intro c; simp [process_replies, List.enumFrom]
  | cons raw raws ih =>
    intro c
    simp only [process_replies, process_reply, emit_records_eq, ih,
      List.map_cons, List.flatten_cons, List.enumFrom_append, List.map_append,
      List.length_append, Prod.mk.injEq]
    exact ⟨trivial, by omega⟩

theorem pad3_min_length (n : Nat) : 3 ≤ (pad3 n).length := by
  unfold pad3
  rw [List.length_append, List.length_replicate]
  omega

theorem mem_py_replace_single {a b ch : Char} {s : PyStr}
    (h : ch ∈ py_replace [a] [b] s) : ch = b ∨ (ch ∈ s ∧ ch ≠ a) := by
  rw [py_replace_single] at h
  obtain ⟨x, hx, hxe⟩ := List.mem_map.mp h
  by_cases hxa : x = a
  · rw [if_pos hxa] at hxe
    exact Or.inl hxe.symm
  · rw [if_neg hxa] at hxe
    exact Or.inr ⟨hxe ▸ hx, hxe ▸ hxa⟩

theorem mem_replace_foldl (l : List Char) :
    ∀ (s : PyStr) (ch : Char),
      ch ∈ List.foldl (fun acc a => py_replace [a] ['_'] acc) s l →
      ch = '_' ∨ (ch ∈ s ∧ ch ∉ l) := by
  induction l with
  | nil => intro s ch h; exact Or.inr ⟨h, by simp⟩
  | cons a l ih =>
    intro s ch h
    rcases ih (py_replace [a] ['_'] s) ch h with h1 | ⟨h1, h2⟩
    · exact Or.inl h1
    · rcases mem_py_replace_single h1 with h3 | ⟨h3, h4⟩
      · exact Or.inl h3
      · exact Or.inr ⟨h3, by simp [h2, h4]⟩

theorem splitWsGo_no_ws :
    ∀ (fuel : Nat) (s tok : PyStr), tok ∈ splitWsGo fuel s →
      ∀ ch ∈ tok, isWs ch = false := by
  intro fuel
  induction fuel with
  | zero => intro s tok h; simp [splitWsGo] at h
  | succ fuel ih =>
    intro s tok h ch hch
    rw [splitWsGo] at h
    cases hd : s.dropWhile isWs with
    | nil => rw [hd] at h; simp at h
    | cons c rest =>
      rw [hd] at h
      rcases List.mem_cons.mp h with rfl | h2
      · rcases List.mem_cons.mp hch with rfl | h3
        · have h4 := List.head?_dropWhile_not isWs s
          rw [hd] at h4
          simpa using h4
        · have h5 := List.mem_takeWhile_imp h3
          simpa using h5
      · exact ih _ tok h2 ch hch

theorem mem_sepJoin {sp : PyStr} :
    ∀ (parts : List PyStr) (ch : Char), ch ∈ sepJoin sp parts →
      ch ∈ sp ∨ ∃ part ∈ parts, ch ∈ part := by
  intro parts
  induction parts with
  | nil => intro ch h; simp [sepJoin] at h
  | cons x xs ih =>
    intro ch h
    cases xs with
    | nil => exact Or.inr ⟨x, by simp, h⟩
    | cons y ys =>
      rw [sepJoin] at h
      rcases List.mem_append.mp h with h1 | h1
      · rcases List.mem_append.mp h1 with h2 | h2
        · exact Or.inr ⟨x, by simp, h2⟩
        · exact Or.inl h2
      · rcases ih ch h1 with h2 | ⟨part, h3, h4⟩
        · exact Or.inl h2
        · exact Or.inr ⟨part, by simp [h3], h4⟩

theorem py_safe_title_chars (t : PyStr) :
    ∀ ch ∈ py_safe_title t, ¬(ch ∈ invalid_chars ∨ isWs ch = true) := by
  intro ch hch
  simp only [py_safe_title] at hch
  have hch1 : ch ∈ invalid_chars.foldl (fun acc c => py_replace [c] ['_'] acc)
      (sepJoin ['_'] (py_split_ws t)) := by
    by_cases hlen : 150 < (invalid_chars.foldl (fun acc c => py_replace [c] ['_'] acc)
        (sepJoin ['_'] (py_split_ws t))).length
    · rw [if_pos hlen] at hch
      exact List.mem_of_mem_take hch
    · rwa [if_neg hlen] at hch
  rcases mem_replace_foldl invalid_chars _ ch hch1 with h1 | ⟨h1, h2⟩
  · subst h1
    decide
  · intro hcon
    rcases hcon with hcon | hcon
    · exact h2 hcon
    · rcases mem_sepJoin _ ch h1 with h3 | ⟨tok, h4, h5⟩
      · rcases List.mem_singleton.mp h3 with rfl
        simp [isWs] at hcon
      · rw [splitWsGo_no_ws _ _ tok h4 ch h5] at hcon
        simp at hcon

theorem py_safe_title_bounded (t : PyStr) : (py_safe_title t).length ≤ 150 := by
  simp only [py_safe_title]
  split
  · simpa using List.length_take_le ..
  · omega

/-- Claim C9, confirmed: every record is written to
`<id, zero-padded to ≥ 3 digits>_<sanitized title>.txt` with body plus
trailing newline as content; the ids assigned across a run are the
consecutive integers starting at the initial counter (no gap, no reuse);
the sanitized title contains no filesystem-reserved character and no
whitespace, and is truncated to at most 150 characters. -/
theorem c9_filenames_and_ids :
    (∀ (c : Nat) (ps : List (List (PyStr × PyJson))),
      emit_records c ps
        = ((ps.enumFrom c).map (fun q => write_piece q.1 q.2), c + ps.length))
    ∧ (∀ (c : Nat) (raws : List PyStr),
      process_replies c raws
        = ((((raws.map reply_pieces).flatten).enumFrom c).map
            (fun q => write_piece q.1 q.2),
           c + ((raws.map reply_pieces).flatten).length))
    ∧ (∀ n : Nat, 3 ≤ (pad3 n).length)
    ∧ (∀ (t : PyStr), ∀ ch ∈ py_safe_title t,
        ¬(ch ∈ invalid_chars ∨ isWs ch = true))
    ∧ (∀ t : PyStr, (py_safe_title t).length ≤ 150) :=
  ⟨fun c ps => emit_records_eq ps c,
   fun c raws => process_replies_files raws c,
   pad3_min_length,
   py_safe_title_chars,
   py_safe_title_bounded⟩

/-- Witness for `c9_filenames_and_ids`, matching the specification's
Sequencer example: three records titled `"My Title"` from a fresh counter of
5 yield `005_My_Title.txt`, `006_My_Title.txt`, `007_My_Title.txt` and a
final counter of 8. -/
theorem c9_witness :
    emit_records 5
      [[(pys "title", PyJson.str (pys "My Title")),
        (pys "body", PyJson.str (pys "Hello"))],
       [(pys "title", PyJson.str (pys "My Title")),
        (pys "body", PyJson.str (pys "Hello"))],
       [(pys "title", PyJson.str (pys "My Title")),
        (pys "body", PyJson.str (pys "Hello"))]]
      = ([(pys "005_My_Title.txt", pys "Hello\n"),
          (pys "006_My_Title.txt", pys "Hello\n"),
          (pys "007_My_Title.txt", pys "Hello\n")], 8)
    ∧ 3 ≤ (pad3 7).length
    ∧ ('_' ∈ py_safe_title (pys "My/Title") ∧
        ¬('_' ∈ invalid_chars ∨ isWs '_' = true)) :=
  ⟨(c9_filenames_and_ids.1 5 _).trans (by decide),
   c9_filenames_and_ids.2.2.1 7,
   ⟨by decide, c9_filenames_and_ids.2.2.2.1 (pys "My/Title") '_' (by decide)⟩⟩

